import Mathlib

/-!
Verification development for the molassembler stereopermutation core.

The repository's sources at hand contain the python IO test-suite and the
conan package recipe; the core components (Molecular Graph, Shape Catalog,
Substituent Ranker, Stereopermutation Enumerator, Geometry Resolver,
Molecule Splitter) are therefore modelled from the specification document,
faithfully to its words, and the claimed properties are proved about these
models.
-/

namespace Molassembler

/-! ## Shapes and the Stereopermutation Enumerator (spec §3, §4.4) -/

/-- Modelled from the spec: applying a rotation of a Shape's symmetry group,
given as a permutation `r` of vertex indices, to an assignment `a` of
ranking classes to vertices (class at vertex `v` is `a[v]`); the image
assignment reads class `a[r[v]]` at vertex `v`. -/
def applyRot (r : List Nat) (a : List Nat) : List Nat :=
  r.map (fun i => a.getD i 0)

/-- Minimum of a list of assignments in lexicographic order, `none` on the
empty list.  Used to pick the canonical (lexicographically smallest) orbit
representative. -/
def listMin : List (List Nat) → Option (List Nat)
  | [] => none
  | x :: xs =>
    match listMin xs with
    | none => some x
    | some m => some (if x ≤ m then x else m)

/-- Modelled from the spec: a Shape is an immutable catalog entry with a
name, a vertex count, and its rotation symmetry group represented as the
set of permutations of vertex indices induced by the group's rotations
(spec §3, "Shape").  The idealized unit-sphere vertex positions play no
role in any claim about the Enumerator and are omitted. -/
structure Shape where
  name : String
  vertexCount : Nat
  rotations : List (List Nat)
  deriving DecidableEq, Repr

/-- Well-formedness of a Shape: the rotation group contains the identity
permutation and every rotation is a permutation of the vertex indices. -/
def Shape.WF (S : Shape) : Prop :=
  List.range S.vertexCount ∈ S.rotations ∧
    ∀ r ∈ S.rotations, r.Perm (List.range S.vertexCount)

/-- Modelled from the spec: the canonical form of an assignment is the
lexicographically smallest assignment among all images under the group's
permutations (spec §4.4). -/
def canonicalForm (S : Shape) (a : List Nat) : List Nat :=
  (listMin (S.rotations.map (fun r => applyRot r a))).getD a

/-- Modelled from the spec: the Stereopermutation Enumerator generates all
assignments of classes to vertices consistent with the class multiset,
maps each to its canonical form under the shape's rotation group
(assignments sharing a canonical form are one orbit), and returns the set
of canonical-form representatives in a fixed, reproducible order, sorted
by canonical form (spec §4.4). -/
def enumerate (S : Shape) (C : List Nat) : List (List Nat) :=
  ((C.permutations'.map (canonicalForm S)).dedup).insertionSort (fun x y => x ≤ y)

/-- Error kinds of the Enumerator (spec §7). -/
inductive EnumError where
  | VertexCountMismatch
  deriving DecidableEq, Repr

/-- Modelled from the spec: the Enumerator takes a Shape and the ordered
partition of Ranking Classes sized to match the shape's vertex count and
fails with `VertexCountMismatch` otherwise (spec §4.4). -/
def enumerateChecked (S : Shape) (C : List Nat) : Except EnumError (List (List Nat)) :=
  if C.length = S.vertexCount then Except.ok (enumerate S C)
  else Except.error EnumError.VertexCountMismatch

/-- Modelled from the spec: a Stereocenter Assignment records which
stereopermutation is assigned at a center: the Shape at the center, the
ordered ranking-class partition of its sites, and the concrete
vertex-to-class occupation (class at vertex `v` is `occupation[v]`)
(spec §3, "Stereocenter Assignment"). -/
structure StereocenterAssignment where
  shape : Shape
  classes : List Nat
  occupation : List Nat

/-- Position of the first occurrence of `x` in a representative list. -/
def orbitIndexOf (x : List Nat) : List (List Nat) → Nat
  | [] => 0
  | y :: ys => if y = x then 0 else orbitIndexOf x ys + 1

/-- Modelled from the spec: the canonical encoding of a Stereocenter
Assignment as the triple (shape identifier, ranking-class partition,
orbit index), where the orbit index is the position of the assignment's
canonical form among the enumerated orbit representatives (spec §6, §8). -/
def encodeAssignment (A : StereocenterAssignment) : String × List Nat × Nat :=
  (A.shape.name, A.classes,
    orbitIndexOf (canonicalForm A.shape A.occupation) (enumerate A.shape A.classes))

/-- Modelled from the spec: decoding a triple looks up the orbit
representative at the given orbit index among the enumerated
representatives, without any 3D coordinates (spec §6, §8). -/
def decodeAssignment (S : Shape) (C : List Nat) (orbitIndex : Nat) :
    Option (List Nat) :=
  (enumerate S C)[orbitIndex]?

/-- The tetrahedral shape from the catalog: 4 vertices, 12 proper rotations. -/
def tetrahedron : Shape :=
  ⟨"tetrahedron", 4,
    [[0, 1, 2, 3], [1, 0, 3, 2], [2, 3, 0, 1], [3, 2, 1, 0],
     [0, 2, 3, 1], [0, 3, 1, 2], [1, 2, 0, 3], [1, 3, 2, 0],
     [2, 0, 1, 3], [2, 1, 3, 0], [3, 0, 2, 1], [3, 1, 0, 2]]⟩

/-- A 3-vertex shape with trivial (identity-only) rotation group. -/
def asymmTriangle : Shape := ⟨"asymmetric triangle", 3, [[0, 1, 2]]⟩

/-! ## The Geometry Resolver (spec §4.5, §7) -/

/-- Error kinds of the Geometry Resolver (spec §7). -/
inductive ResolveError where
  | AmbiguousShape
  | NoMatchingShape
  | IndeterminateGeometry
  deriving DecidableEq, Repr

/-- Modelled from the spec: what the Resolver observes about a center's
geometry — how many sites the center's shape must accommodate, how many
distinct, well-separated neighbor positions were observed, and whether the
observed positions are near-degenerate/collinear (spec §4.5). -/
structure ResolverInput where
  siteCount : Nat
  positionCount : Nat
  degenerate : Bool

/-- Modelled from the spec: the configured tolerance (two shapes'
residuals tying) and threshold (maximal admissible residual deviation),
exposed as explicit configuration (spec §4.5, §9). -/
structure ResolverConfig where
  tolerance : ℚ
  threshold : ℚ

/-- The candidate shape with least alignment residual, `none` when no
candidate is available. -/
def bestShape (residual : Shape → ℚ) : List Shape → Option Shape
  | [] => none
  | s :: rest =>
    match bestShape residual rest with
    | none => some s
    | some b => some (if residual s ≤ residual b then s else b)

/-- Modelled from the spec: the Geometry Resolver's decision logic.  The
Procrustes-style alignment itself is abstracted as the `residual` map
giving each candidate shape its best-alignment residual deviation; per
spec §4.5, degenerate or insufficient observed positions fail with
`IndeterminateGeometry`, a best residual above the configured threshold
(or no candidate of the required size) fails with `NoMatchingShape`, a
second candidate within the configured tolerance of the best fails with
`AmbiguousShape`, and only otherwise is the winning shape committed. -/
def resolve (catalog : List Shape) (residual : Shape → ℚ) (inp : ResolverInput)
    (cfg : ResolverConfig) : Except ResolveError Shape :=
  if inp.positionCount < inp.siteCount ∨ inp.degenerate = true then
    Except.error ResolveError.IndeterminateGeometry
  else
    (bestShape residual (catalog.filter (fun s => s.vertexCount == inp.siteCount))).elim
      (Except.error ResolveError.NoMatchingShape)
      (fun b =>
        if cfg.threshold < residual b then
          Except.error ResolveError.NoMatchingShape
        else if (catalog.filter (fun s => s.vertexCount == inp.siteCount)).any
            (fun s => decide (s ≠ b) && decide (|residual s - residual b| ≤ cfg.tolerance)) then
          Except.error ResolveError.AmbiguousShape
        else Except.ok b)

/-- A second 4-vertex catalog entry, used to exercise residual ties. -/
def seesaw : Shape := ⟨"seesaw", 4, [[0, 1, 2, 3]]⟩

/-! ## The Substituent Ranker (spec §4.3) -/

/-- Modelled from the spec: the graph data the Ranker consults — an
element type per atom (atom count is the length of `elements`) and the
bond list (spec §4.3). -/
structure RankGraph where
  elements : List Nat
  bonds : List (Nat × Nat)

def RankGraph.numAtoms (g : RankGraph) : Nat := g.elements.length

/-- Element type of an atom. -/
def elemOf (g : RankGraph) (a : Nat) : Nat := g.elements.getD a 0

/-- Neighbors of an atom, in increasing index order. -/
def nbrs (g : RankGraph) (a : Nat) : List Nat :=
  (List.range g.numAtoms).filter
    (fun b => decide ((a, b) ∈ g.bonds ∨ (b, a) ∈ g.bonds))

/-- Modelled from the spec: the descriptor of the rooted substituent
subgraph at atom `a`, built without crossing back through the atoms in
`visited` (initially the candidate center): element priority first, then
the number of ring closures (neighbors already visited are recorded as a
ring-closure count rather than recursed into, keeping the traversal
cycle-safe), then the next sphere's descriptors in sorted order so that
the comparison is confluent regardless of traversal order; `fuel` bounds
the recursion depth (spec §4.3, §9).  Encoded as a flat token list with
bracket markers. -/
def subgraphDesc (g : RankGraph) : Nat → List Nat → Nat → List Nat
  | 0, _, _ => [0]
  | fuel + 1, visited, a =>
    [1, elemOf g a, ((nbrs g a).filter (fun b => decide (b ∈ visited))).length] ++
      ((((nbrs g a).filter (fun b => decide (b ∉ visited))).map
          (fun b => subgraphDesc g fuel (a :: visited) b)).insertionSort
        (fun x y => x ≤ y)).flatten ++ [2]

/-- The ranking key of a neighbor site: the descriptor of its rooted
substituent subgraph, explored deeply enough to exhaust the molecule. -/
def siteKey (g : RankGraph) (center : Nat) (site : Nat) : List Nat :=
  subgraphDesc g (g.numAtoms + 1) [center] site

/-- The Ranker's total preorder on sites: by subgraph descriptor first,
with site index as the final tiebreaker (making sorting canonical). -/
def siteLE (g : RankGraph) (center : Nat) (s t : Nat) : Prop :=
  siteKey g center s < siteKey g center t ∨
    (siteKey g center s = siteKey g center t ∧ s ≤ t)

instance (g : RankGraph) (c : Nat) : DecidableRel (siteLE g c) := fun s t => by
  unfold siteLE
  infer_instance

instance (g : RankGraph) (c : Nat) : IsTrans Nat (siteLE g c) := by
  constructor
  intro s t u h1 h2
  rcases h1 with h1 | ⟨h1e, h1le⟩
  · rcases h2 with h2 | ⟨h2e, _⟩
    · exact Or.inl (h1.trans h2)
    · exact Or.inl (h2e ▸ h1)
  · rcases h2 with h2 | ⟨h2e, h2le⟩
    · exact Or.inl (h1e ▸ h2)
    · exact Or.inr ⟨h1e.trans h2e, h1le.trans h2le⟩

instance (g : RankGraph) (c : Nat) : IsAntisymm Nat (siteLE g c) := by
  constructor
  intro s t h1 h2
  rcases h1 with h1 | ⟨_, h1le⟩
  · rcases h2 with h2 | ⟨h2e, _⟩
    · exact absurd h2 (lt_asymm h1)
    · exact absurd h2e (ne_of_gt h1)
  · rcases h2 with h2 | ⟨_, h2le⟩
    · exact absurd h2 (not_lt_of_ge (le_of_eq (by assumption)))
    · exact Nat.le_antisymm h1le h2le

instance (g : RankGraph) (c : Nat) : IsTotal Nat (siteLE g c) := by
  constructor
  intro s t
  rcases lt_trichotomy (siteKey g c s) (siteKey g c t) with h | h | h
  · exact Or.inl (Or.inl h)
  · rcases Nat.le_total s t with hle | hle
    · exact Or.inl (Or.inr ⟨h, hle⟩)
    · exact Or.inr (Or.inr ⟨h.symm, hle⟩)
  · exact Or.inr (Or.inl h)

/-- One step of grouping a key-sorted site list into runs of equal key. -/
def chunkCons (key : Nat → List Nat) (a : Nat) : List (List Nat) → List (List Nat)
  | [] => [[a]]
  | [] :: gs => [a] :: gs
  | (b :: grp) :: gs =>
    if key a = key b then (a :: b :: grp) :: gs else [a] :: (b :: grp) :: gs

/-- Group a key-sorted site list into maximal runs of equal key: the
ordered partition into Ranking Classes. -/
def chunkByKey (key : Nat → List Nat) : List Nat → List (List Nat)
  | [] => []
  | a :: rest => chunkCons key a (chunkByKey key rest)

/-- Modelled from the spec: the Substituent Ranker — sort the presented
neighbor sites by their rooted-subgraph descriptors and group ties into
Ranking Classes, yielding the ordered partition of the sites
(spec §4.3). -/
def rankSites (g : RankGraph) (center : Nat) (sites : List Nat) : List (List Nat) :=
  chunkByKey (siteKey g center) (sites.insertionSort (siteLE g center))

/-- A concrete center: atom 0 (Fe) bound to O (atom 1), a C bearing an H
(atoms 2, 4) and a C bearing an F (atoms 3, 5). -/
def rankG : RankGraph :=
  ⟨[26, 8, 6, 6, 1, 9], [(0, 1), (0, 2), (0, 3), (2, 4), (3, 5)]⟩

/-! ## The python IO test-suite (src/src/molassembler/python/test_IO.py) -/

/-- The environment `test_LineNotation` runs against: the
`molassembler.io.LineNotation.enabled` flag and the atom counts
(`.graph.N()`) of the molecules produced by the two line-notation
parsers. -/
structure LineNotationEnv where
  enabled : Bool
  fromIsomericSmilesN : String → Nat
  fromInchiN : String → Nat

/-- Observable events of a run of `test_LineNotation`: calls into the
line-notation collaborators and evaluations of `assert` statements. -/
inductive TestEvent where
  | callFromIsomericSmiles (s : String)
  | callFromInchi (s : String)
  | assertionCheck (passed : Bool)
  deriving DecidableEq, Repr

/-- The SMILES string of caffeine used by the test (test_IO.py line 11). -/
def caffeineSmiles : String := "CN1C=NC2=C1C(=O)N(C(=O)N2C)C"

/-- The InChI string of caffeine used by the test (test_IO.py line 12). -/
def caffeineInchi : String :=
  "InChI=1S/C8H10N4O2/c1-10-4-9-6-5(10)7(13)12(3)8(14)11(6)2/h4H,1-3H3"

/-- Shallow embedding of `test_LineNotation` (test_IO.py lines 7-18) as the
trace of events it emits: if the `enabled` flag is down the function
returns at once with an empty trace; otherwise it parses the SMILES
string, asserts that the graph holds 24 atoms (a failing `assert` raises
and aborts the test), then parses the InChI string and asserts again. -/
def test_LineNotation (env : LineNotationEnv) : List TestEvent :=
  if env.enabled = false then []
  else
    if env.fromIsomericSmilesN caffeineSmiles = 24 then
      [TestEvent.callFromIsomericSmiles caffeineSmiles,
       TestEvent.assertionCheck true,
       TestEvent.callFromInchi caffeineInchi,
       TestEvent.assertionCheck (env.fromInchiN caffeineInchi = 24)]
    else
      [TestEvent.callFromIsomericSmiles caffeineSmiles,
       TestEvent.assertionCheck false]

/-! ## The conan package recipe (src/conanfile.py) -/

/-- The option set declared by `MolassemblerConan.options`
(conanfile.py line 19): `subsume_dependencies` is the only option. -/
def declaredOptions : List String := ["subsume_dependencies"]

/-- An action `config_options` may perform on the declared option set. -/
inductive ConfigAction where
  | deleteOption (optionName : String)
  deriving DecidableEq, Repr

/-- Shallow embedding of `MolassemblerConan.config_options`
(conanfile.py lines 43-45): when `settings.os` is "Windows" it performs
`del self.options.fPIC`, otherwise it does nothing. -/
def config_options (os : String) : List ConfigAction :=
  if os = "Windows" then [ConfigAction.deleteOption "fPIC"] else []

/-- Effect of a list of configuration actions on an option set. -/
def applyConfigActions : List ConfigAction → List String → List String
  | [], opts => opts
  | ConfigAction.deleteOption n :: rest, opts =>
      applyConfigActions rest (opts.erase n)

/-! ## Molecular Graph and the Molecule Splitter (spec §3, §4.1, §4.6) -/

/-- Modelled from the spec: a Molecular Graph is a set of atoms and a set
of bonds; atoms are identified by stable indices `0, ..., numAtoms - 1`
and a bond is an unordered pair of atom indices (spec §3).  Element types,
charges and bond orders play no role in any splitter claim and are
omitted. -/
structure MolGraph where
  numAtoms : Nat
  bonds : List (Nat × Nat)

/-- The graph invariant of spec §3: every bond references two existing,
distinct atoms. -/
def MolGraph.WF (g : MolGraph) : Prop :=
  ∀ b ∈ g.bonds, b.1 < g.numAtoms ∧ b.2 < g.numAtoms ∧ b.1 ≠ b.2

instance (g : MolGraph) : Decidable g.WF :=
  inferInstanceAs
    (Decidable (∀ b ∈ g.bonds, b.1 < g.numAtoms ∧ b.2 < g.numAtoms ∧ b.1 ≠ b.2))

/-- Two atoms are adjacent when some bond joins them (in either
direction, bonds being unordered pairs). -/
def Adj (g : MolGraph) (a b : Nat) : Prop :=
  (a, b) ∈ g.bonds ∨ (b, a) ∈ g.bonds

instance (g : MolGraph) (a b : Nat) : Decidable (Adj g a b) :=
  inferInstanceAs (Decidable ((a, b) ∈ g.bonds ∨ (b, a) ∈ g.bonds))

/-- One round of connectivity expansion: add every atom adjacent to the
current set. -/
def expandStep (g : MolGraph) (S : Finset Nat) : Finset Nat :=
  S ∪ (Finset.range g.numAtoms).filter (fun b => ∃ a ∈ S, Adj g a b)

/-- The connected component of atom `a`, computed by expanding
`numAtoms` times from `{a}` (enough rounds to reach a fixpoint, proved in
`reachSet_fixpoint`). -/
def reachSet (g : MolGraph) (a : Nat) : Finset Nat :=
  (expandStep g)^[g.numAtoms] {a}

/-- The representative of an atom's component: the lowest atom index in
its connected component. -/
def compRepr (g : MolGraph) (a : Nat) : Nat :=
  (reachSet g a).fold min a id

/-- Connectivity as a specification-level relation: the reflexive
transitive closure of adjacency.  `reachSet` is proved to agree with it
in `mem_reachSet_iff_reaches`. -/
def Reaches (g : MolGraph) : Nat → Nat → Prop :=
  Relation.ReflTransGen (Adj g)

/-- Modelled from the spec: one output of the Molecule Splitter — an
independent Molecular Graph for a single connected component.  `rep` is
the lowest original atom index in the component; `atoms` lists the
component's original atom indices in increasing order, which is the
explicit mapping back from dense new indices (positions in the list) to
original indices; `bonds` are the component's bonds in original
indices (spec §4.6). -/
structure Fragment where
  rep : Nat
  atoms : List Nat
  bonds : List (Nat × Nat)
  deriving DecidableEq, Repr

/-- The Fragment holding the component whose representative is `r`. -/
def componentOf (g : MolGraph) (r : Nat) : Fragment :=
  { rep := r
    atoms := (List.range g.numAtoms).filter (fun a => compRepr g a == r)
    bonds := g.bonds.filter (fun p => compRepr g p.1 == r) }

/-- Modelled from the spec: the Molecule Splitter partitions a graph into
independent Molecular Graphs, one per connected component, ordered by the
lowest original atom index appearing in each component (spec §4.6). -/
def splitter (g : MolGraph) : List Fragment :=
  ((List.range g.numAtoms).filter (fun a => compRepr g a == a)).map (componentOf g)

/-- The spec §8 splitter example: components of sizes 5, 3 and 1. -/
def mol9 : MolGraph :=
  ⟨9, [(0, 1), (1, 2), (2, 3), (3, 4), (5, 6), (6, 7)]⟩

/-! ### Basic lemmas about `listMin`, `applyRot`, `canonicalForm` -/

theorem listMin_mem : ∀ {l : List (List Nat)} {m : List Nat},
    listMin l = some m → m ∈ l := by
  intro l
  induction l with
  | nil => intro m h; simp [listMin] at h
  | cons x xs ih =>
    intro m h
    simp only [listMin] at h
    cases hxs : listMin xs with
    | none => rw [hxs] at h; simp at h; simp [h]
    | some m' =>
      rw [hxs] at h
      simp at h
      by_cases hle : x ≤ m'
      · simp [hle] at h; simp [h]
      · simp [hle] at h
        right
        exact h ▸ ih hxs

theorem listMin_isSome {l : List (List Nat)} (h : l ≠ []) :
    ∃ m, listMin l = some m := by
  cases l with
  | nil => exact absurd rfl h
  | cons x xs =>
    simp only [listMin]
    cases listMin xs with
    | none => exact ⟨x, rfl⟩
    | some m' => exact ⟨if x ≤ m' then x else m', rfl⟩

/-- Applying the identity permutation returns the assignment unchanged. -/
theorem applyRot_range {n : Nat} {a : List Nat} (h : a.length = n) :
    applyRot (List.range n) a = a := by
  apply List.ext_getElem
  · simp [applyRot, h]
  · intro i h1 h2
    simp only [applyRot, List.getElem_map, List.getElem_range]
    exact List.getD_eq_getElem a 0 h2

/-- The canonical form under the trivial rotation group is the assignment
itself. -/
theorem canonicalForm_trivial {S : Shape} {a : List Nat}
    (hrot : S.rotations = [List.range S.vertexCount])
    (hlen : a.length = S.vertexCount) :
    canonicalForm S a = a := by
  simp [canonicalForm, hrot, listMin, applyRot_range hlen]

/-- Every rotation of a well-formed shape maps the all-identical assignment
to itself. -/
theorem applyRot_replicate {n : Nat} {c : Nat} {r : List Nat}
    (hr : r.Perm (List.range n)) :
    applyRot r (List.replicate n c) = List.replicate n c := by
  have hlen : r.length = n := by
    simpa using hr.length_eq
  have hmem : ∀ i ∈ r, (List.replicate n c).getD i 0 = c := by
    intro i hi
    have : i ∈ List.range n := hr.mem_iff.mp hi
    have hin : i < n := List.mem_range.mp this
    have hlt : i < (List.replicate n c).length := by simpa using hin
    rw [List.getD_eq_getElem _ _ hlt, List.getElem_replicate]
  calc applyRot r (List.replicate n c)
      = r.map (fun _ => c) := List.map_congr_left hmem
    _ = List.replicate r.length c := List.map_const' r c
    _ = List.replicate n c := by rw [hlen]

theorem canonicalForm_replicate {S : Shape} (hWF : S.WF) (c : Nat) :
    canonicalForm S (List.replicate S.vertexCount c) =
      List.replicate S.vertexCount c := by
  unfold canonicalForm
  have hne : S.rotations ≠ [] := by
    intro h
    have h1 := hWF.1
    rw [h] at h1
    exact absurd h1 (List.not_mem_nil _)
  have hmap : S.rotations.map (fun r => applyRot r (List.replicate S.vertexCount c)) =
      S.rotations.map (fun _ => List.replicate S.vertexCount c) := by
    apply List.map_congr_left
    intro r hr
    exact applyRot_replicate (hWF.2 r hr)
  rw [hmap]
  have hne' : S.rotations.map (fun _ => List.replicate S.vertexCount c) ≠ [] := by
    simpa using hne
  obtain ⟨m, hm⟩ := listMin_isSome hne'
  rw [hm]
  obtain ⟨r, hr, hrm⟩ := List.mem_map.mp (listMin_mem hm)
  rw [Option.getD_some]
  exact hrm.symm

/-- A nonempty list all of whose elements equal `x` dedups to `[x]`. -/
theorem dedup_all_eq {α : Type} [DecidableEq α] (x : α) :
    ∀ l : List α, l ≠ [] → (∀ y ∈ l, y = x) → l.dedup = [x]
  | [], h, _ => absurd rfl h
  | a :: l, _, hall => by
    have ha : a = x := hall a (List.mem_cons_self a l)
    cases l with
    | nil => rw [ha]; rfl
    | cons b l' =>
      have hall' : ∀ y ∈ b :: l', y = x := fun y hy =>
        hall y (List.mem_cons_of_mem a hy)
      have hd := dedup_all_eq x (b :: l') (by simp) hall'
      have hmem : a ∈ b :: l' := by
        rw [ha, ← hall' b (List.mem_cons_self b l')]
        exact List.mem_cons_self b l'
      rw [List.dedup_cons_of_mem hmem]
      exact hd

/-- Claim C2: the Stereopermutation Enumerator is deterministic and pure.
In this shallow embedding `enumerate` is a pure function, so two runs on the
same `(S, C)` are definitionally equal and there are no external side
effects; the substantive content proved here is that the result depends
only on the shape and the multiset of ranking classes: permuting the input
class list leaves the representative list (set and order) unchanged, so
results are cacheable by the (shape, ranking-class-multiset) key. -/
theorem enumerate_deterministic (S : Shape) (C C' : List Nat) (h : C.Perm C') :
    enumerate S C = enumerate S C' := by
  exact List.eq_of_perm_of_sorted
    ((List.perm_insertionSort _ _).trans
      (((h.permutations'.map (canonicalForm S)).dedup).trans
        (List.perm_insertionSort _ _).symm))
    (List.sorted_insertionSort _ _) (List.sorted_insertionSort _ _)

/-- Witness for C2 at a concrete input: two runs on multiset-equal class
lists over the tetrahedron agree. -/
theorem enumerate_deterministic_witness :
    enumerate tetrahedron [0, 1, 2, 3] = enumerate tetrahedron [3, 1, 2, 0] :=
  enumerate_deterministic tetrahedron [0, 1, 2, 3] [3, 1, 2, 0] (by decide)

/-- Claim C4: for a shape with trivial (identity-only) rotation group and
pairwise distinct ranking classes sized to the vertex count, the Enumerator
returns exactly `factorial (vertex count)` stereopermutations, one per raw
assignment of classes to vertices. -/
theorem enumerate_trivial_group_count (S : Shape) (C : List Nat)
    (hrot : S.rotations = [List.range S.vertexCount])
    (hlen : C.length = S.vertexCount) (hnd : C.Nodup) :
    (enumerate S C).length = Nat.factorial S.vertexCount := by
  unfold enumerate
  rw [List.length_insertionSort]
  have hmap : C.permutations'.map (canonicalForm S) = C.permutations' := by
    have hcf : ∀ p ∈ C.permutations', canonicalForm S p = p := by
      intro p hp
      have hperm : p.Perm C := List.mem_permutations'.mp hp
      exact canonicalForm_trivial hrot (by rw [hperm.length_eq, hlen])
    calc C.permutations'.map (canonicalForm S)
        = C.permutations'.map id := List.map_congr_left hcf
      _ = C.permutations' := List.map_id _
  rw [hmap]
  have hnd' : C.permutations'.Nodup :=
    (List.permutations_perm_permutations' C).nodup_iff.mp
      (List.nodup_permutations C hnd)
  rw [List.dedup_eq_self.mpr hnd',
    (List.permutations_perm_permutations' C).symm.length_eq,
    List.length_permutations, hlen]

/-- Witness for C4: the trivial-symmetry 3-vertex shape with three distinct
classes yields `3! = 6` stereopermutations. -/
theorem enumerate_trivial_group_count_witness :
    (enumerate asymmTriangle [0, 1, 2]).length = Nat.factorial 3 :=
  enumerate_trivial_group_count asymmTriangle [0, 1, 2] (by decide) (by decide)
    (by decide)

/-- Claim C5: for every shape and the all-identical ranking-class multiset
sized to the shape's vertex count, the Enumerator returns exactly one
stereopermutation (the representative list is the one-element list holding
the constant assignment). -/
theorem enumerate_all_identical (S : Shape) (hWF : S.WF) (c : Nat) :
    enumerate S (List.replicate S.vertexCount c) =
      [List.replicate S.vertexCount c] := by
  unfold enumerate
  have hall : ∀ y ∈ (List.replicate S.vertexCount c).permutations'.map (canonicalForm S),
      y = List.replicate S.vertexCount c := by
    intro y hy
    obtain ⟨p, hp, hpc⟩ := List.mem_map.mp hy
    have hperm : p.Perm (List.replicate S.vertexCount c) :=
      List.mem_permutations'.mp hp
    have hpR : p = List.replicate S.vertexCount c :=
      List.eq_replicate_iff.mpr
        ⟨by rw [hperm.length_eq, List.length_replicate],
         fun b hb => List.eq_of_mem_replicate (hperm.subset hb)⟩
    rw [← hpc, hpR, canonicalForm_replicate hWF]
  have hne : (List.replicate S.vertexCount c).permutations'.map (canonicalForm S) ≠ [] := by
    have hmem : List.replicate S.vertexCount c ∈
        (List.replicate S.vertexCount c).permutations' :=
      List.mem_permutations'.mpr (List.Perm.refl _)
    intro h
    rw [List.map_eq_nil_iff] at h
    rw [h] at hmem
    exact List.not_mem_nil _ hmem
  rw [dedup_all_eq _ _ hne hall]
  rfl

/-- Witness for C5: the all-identical class multiset on the tetrahedron
yields exactly one stereopermutation. -/
theorem enumerate_all_identical_witness :
    enumerate tetrahedron (List.replicate tetrahedron.vertexCount 7) =
      [List.replicate tetrahedron.vertexCount 7] :=
  enumerate_all_identical tetrahedron ⟨by decide, by decide⟩ 7

/-- Claim C6: the checked Enumerator fails with `VertexCountMismatch` iff
the ranking-class partition is not sized to the shape's vertex count, and
on matching sizes it returns the enumerated orbit representatives. -/
theorem enumerateChecked_mismatch_iff (S : Shape) (C : List Nat) :
    (enumerateChecked S C = Except.error EnumError.VertexCountMismatch ↔
      C.length ≠ S.vertexCount) ∧
    (C.length = S.vertexCount →
      enumerateChecked S C = Except.ok (enumerate S C)) := by
  refine ⟨⟨fun h hlen => ?_, fun h => ?_⟩, fun h => ?_⟩
  · simp [enumerateChecked, hlen] at h
  · simp [enumerateChecked, h]
  · simp [enumerateChecked, h]

/-- Witness for C6: a 3-class input on the 4-vertex tetrahedron fails with
`VertexCountMismatch`, and a correctly sized input succeeds. -/
theorem enumerateChecked_mismatch_iff_witness :
    enumerateChecked tetrahedron [0, 1, 2] =
        Except.error EnumError.VertexCountMismatch ∧
      enumerateChecked tetrahedron [0, 1, 2, 3] =
        Except.ok (enumerate tetrahedron [0, 1, 2, 3]) :=
  ⟨(enumerateChecked_mismatch_iff tetrahedron [0, 1, 2]).1.mpr (by decide),
   (enumerateChecked_mismatch_iff tetrahedron [0, 1, 2, 3]).2 (by decide)⟩

/-- Looking a list up at the index found by `orbitIndexOf` recovers the
sought element, whenever it is present at all. -/
theorem getElem?_orbitIndexOf {x : List Nat} :
    ∀ {l : List (List Nat)}, x ∈ l → l[orbitIndexOf x l]? = some x := by
  intro l
  induction l with
  | nil => intro h; exact absurd h (List.not_mem_nil x)
  | cons y ys ih =>
    intro h
    by_cases hyx : y = x
    · simp [orbitIndexOf, hyx]
    · have hmem : x ∈ ys := by
        cases List.mem_cons.mp h with
        | inl he => exact absurd he.symm hyx
        | inr hm => exact hm
      simp [orbitIndexOf, hyx, ih hmem]

/-- Claim C8: round-trip.  Encoding a Stereocenter Assignment as the
triple (shape identifier, ranking-class partition, orbit index) and then
decoding that triple yields an assignment whose vertex-to-class mapping is
identical to the original up to the shape's rotation group — the decoded
representative is the image of the original occupation under some rotation
of the shape — without requiring any 3D coordinates. -/
theorem assignment_roundtrip (A : StereocenterAssignment) (hWF : A.shape.WF)
    (hocc : A.occupation.Perm A.classes) :
    ∃ b, decodeAssignment A.shape A.classes (encodeAssignment A).2.2 = some b ∧
      ∃ r ∈ A.shape.rotations, b = applyRot r A.occupation := by
  have hmem : canonicalForm A.shape A.occupation ∈ enumerate A.shape A.classes := by
    unfold enumerate
    rw [List.mem_insertionSort, List.mem_dedup]
    exact List.mem_map_of_mem _ (List.mem_permutations'.mpr hocc)
  refine ⟨canonicalForm A.shape A.occupation, ?_, ?_⟩
  · unfold decodeAssignment encodeAssignment
    simp only
    exact getElem?_orbitIndexOf hmem
  · have hne : A.shape.rotations ≠ [] := fun h => by
      have h1 := hWF.1
      rw [h] at h1
      exact List.not_mem_nil _ h1
    have hne' : A.shape.rotations.map (fun r => applyRot r A.occupation) ≠ [] := by
      simpa using hne
    obtain ⟨m, hm⟩ := listMin_isSome hne'
    obtain ⟨r, hr, hrm⟩ := List.mem_map.mp (listMin_mem hm)
    exact ⟨r, hr, by unfold canonicalForm; rw [hm, Option.getD_some, ← hrm]⟩

/-- Witness for C8: a concrete tetrahedral assignment decodes, after
encoding, to a rotation image of itself. -/
theorem assignment_roundtrip_witness :
    ∃ b, decodeAssignment tetrahedron [0, 1, 2, 3]
        (encodeAssignment ⟨tetrahedron, [0, 1, 2, 3], [2, 0, 1, 3]⟩).2.2 =
          some b ∧
      ∃ r ∈ tetrahedron.rotations, b = applyRot r [2, 0, 1, 3] :=
  assignment_roundtrip ⟨tetrahedron, [0, 1, 2, 3], [2, 0, 1, 3]⟩
    ⟨by decide, by decide⟩ (by decide)

/-- Claim C9: whenever `molassembler.io.LineNotation.enabled` is false,
`test_LineNotation` returns immediately: its trace is empty, so neither
`from_isomeric_smiles` nor `from_inchi` is called and no assertion is
evaluated; and every call or assertion event can occur only when the flag
is true, in which case the SMILES parse is indeed reached. -/
theorem test_LineNotation_gated (env : LineNotationEnv) :
    (env.enabled = false → test_LineNotation env = []) ∧
    (∀ e ∈ test_LineNotation env, env.enabled = true) ∧
    (env.enabled = true →
      TestEvent.callFromIsomericSmiles caffeineSmiles ∈ test_LineNotation env) := by
  refine ⟨fun h => by simp [ test_LineNotation, h], fun e he => ?_, fun h => ?_⟩
  · by_contra hen
    have hfalse : env.enabled = false := by
      cases henv : env.enabled
      · rfl
      · exact absurd henv hen
    rw [ test_LineNotation, if_pos hfalse] at he
    exact List.not_mem_nil e he
  · rw [ test_LineNotation, if_neg (by simp [h])]
    by_cases hsm : env.fromIsomericSmilesN caffeineSmiles = 24
    · rw [if_pos hsm]
      exact List.mem_cons_self _ _
    · rw [if_neg hsm]
      exact List.mem_cons_self _ _

/-- Witness for C9: with the flag down the trace is empty; with it up (and
a parser reporting 24 atoms) the SMILES call is reached. -/
theorem test_LineNotation_gated_witness :
    test_LineNotation ⟨false, fun _ => 24, fun _ => 24⟩ = [] ∧
      TestEvent.callFromIsomericSmiles caffeineSmiles ∈
        test_LineNotation ⟨true, fun _ => 24, fun _ => 24⟩ :=
  ⟨(test_LineNotation_gated ⟨false, fun _ => 24, fun _ => 24⟩).1 rfl,
   (test_LineNotation_gated ⟨true, fun _ => 24, fun _ => 24⟩).2.2 rfl⟩

/-- Claim C10: `MolassemblerConan.config_options` leaves the declared
option set unchanged for every `settings.os` other than "Windows"; only on
"Windows" does it attempt to delete an `fPIC` option, and `fPIC` is never
declared — the only declared option is `subsume_dependencies`. -/
theorem config_options_frame (os : String) :
    (os ≠ "Windows" → config_options os = [] ∧
      applyConfigActions (config_options os) declaredOptions = declaredOptions) ∧
    (os = "Windows" →
      config_options os = [ConfigAction.deleteOption "fPIC"]) ∧
    "fPIC" ∉ declaredOptions ∧ declaredOptions = ["subsume_dependencies"] := by
  refine ⟨fun h => ?_, fun h => by simp [config_options, h], by decide, rfl⟩
  have hc : config_options os = [] := by simp [config_options, h]
  exact ⟨hc, by rw [hc]; rfl⟩

/-- Witness for C10: on Linux the action list is empty and the option set
is untouched; on Windows the recipe attempts to delete `fPIC`, which is
not among the declared options. -/
theorem config_options_frame_witness :
    (config_options "Linux" = [] ∧
      applyConfigActions (config_options "Linux") declaredOptions =
        declaredOptions) ∧
      config_options "Windows" = [ConfigAction.deleteOption "fPIC"] ∧
      "fPIC" ∉ declaredOptions :=
  ⟨(config_options_frame "Linux").1 (by decide),
   (config_options_frame "Windows").2.1 rfl,
   (config_options_frame "Linux").2.2.1⟩

theorem Adj.symm' {g : MolGraph} {a b : Nat} (h : Adj g a b) : Adj g b a :=
  Or.symm h

theorem adj_lt {g : MolGraph} (hWF : g.WF) {a b : Nat} (h : Adj g a b) :
    a < g.numAtoms ∧ b < g.numAtoms := by
  cases h with
  | inl h1 => exact ⟨(hWF _ h1).1, (hWF _ h1).2.1⟩
  | inr h2 => exact ⟨(hWF _ h2).2.1, (hWF _ h2).1⟩

theorem foldMin_le {S : Finset Nat} {a b : Nat} (hb : b ∈ S) :
    S.fold min a id ≤ b := by
  have h := (Finset.le_fold_min (S.fold min a id)).mp le_rfl
  exact h.2 b hb

theorem foldMin_le_init (S : Finset Nat) (a : Nat) : S.fold min a id ≤ a := by
  have h := (Finset.le_fold_min (S.fold min a id)).mp le_rfl
  exact h.1

theorem foldMin_mem {S : Finset Nat} {a : Nat} (ha : a ∈ S) :
    S.fold min a id ∈ S := by
  have h := (Finset.fold_min_le (S.fold min a id)).mp le_rfl
  cases h with
  | inl h1 =>
    have h2 : S.fold min a id = a := le_antisymm (foldMin_le_init S a) h1
    rw [h2]; exact ha
  | inr h2 =>
    obtain ⟨x, hx, hxle⟩ := h2
    have h3 : S.fold min a id = x := le_antisymm (foldMin_le hx) hxle
    rw [h3]; exact hx

theorem foldMin_eq {S : Finset Nat} {a a' : Nat} (ha : a ∈ S) (ha' : a' ∈ S) :
    S.fold min a id = S.fold min a' id :=
  le_antisymm (foldMin_le (foldMin_mem ha')) (foldMin_le (foldMin_mem ha))

theorem subset_expandStep (g : MolGraph) (S : Finset Nat) : S ⊆ expandStep g S :=
  Finset.subset_union_left

theorem expandStep_mono (g : MolGraph) {S T : Finset Nat} (h : S ⊆ T) :
    expandStep g S ⊆ expandStep g T := by
  intro x hx
  unfold expandStep at hx ⊢
  rw [Finset.mem_union] at hx ⊢
  cases hx with
  | inl h1 => exact Or.inl (h h1)
  | inr h2 =>
    rw [Finset.mem_filter] at h2
    obtain ⟨hr, a, ha, hadj⟩ := h2
    exact Or.inr (Finset.mem_filter.mpr ⟨hr, a, h ha, hadj⟩)

theorem expandStep_subset_range (g : MolGraph) {S : Finset Nat}
    (h : S ⊆ Finset.range g.numAtoms) :
    expandStep g S ⊆ Finset.range g.numAtoms :=
  Finset.union_subset h (Finset.filter_subset _ _)

theorem iterate_subset_succ (g : MolGraph) (S : Finset Nat) (k : Nat) :
    (expandStep g)^[k] S ⊆ (expandStep g)^[k + 1] S := by
  rw [Function.iterate_succ_apply']
  exact subset_expandStep g _

theorem iterate_subset_range (g : MolGraph) {S : Finset Nat}
    (h : S ⊆ Finset.range g.numAtoms) (k : Nat) :
    (expandStep g)^[k] S ⊆ Finset.range g.numAtoms := by
  induction k with
  | zero => exact h
  | succ n ih =>
    rw [Function.iterate_succ_apply']
    exact expandStep_subset_range g ih

theorem iterate_stabilizes (g : MolGraph) (S : Finset Nat) {k : Nat}
    (h : (expandStep g)^[k] S = (expandStep g)^[k + 1] S) :
    ∀ m, k ≤ m → (expandStep g)^[m] S = (expandStep g)^[k] S := by
  intro m
  induction m with
  | zero =>
    intro hm
    have : k = 0 := Nat.le_zero.mp hm
    rw [this]
  | succ n ih =>
    intro hm
    rcases Nat.lt_or_ge k (n + 1) with hlt | hge
    · have hkn : k ≤ n := Nat.lt_succ_iff.mp hlt
      have hn := ih hkn
      have hs1 : (expandStep g)^[n + 1] S = expandStep g ((expandStep g)^[n] S) :=
        Function.iterate_succ_apply' _ _ _
      have hs2 : (expandStep g)^[k + 1] S = expandStep g ((expandStep g)^[k] S) :=
        Function.iterate_succ_apply' _ _ _
      rw [hs1, hn, ← hs2, ← h]
    · have : k = n + 1 := le_antisymm hm hge
      rw [this]

theorem card_le_iterate (g : MolGraph) (S : Finset Nat) :
    ∀ m : Nat, (∀ k < m, (expandStep g)^[k] S ≠ (expandStep g)^[k + 1] S) →
      S.card + m ≤ ((expandStep g)^[m] S).card := by
  intro m
  induction m with
  | zero => intro _; simp
  | succ n ih =>
    intro hgrow
    have h1 := ih (fun k hk => hgrow k (Nat.lt_succ_of_lt hk))
    have hne : (expandStep g)^[n] S ≠ (expandStep g)^[n + 1] S :=
      hgrow n (Nat.lt_succ_self n)
    have hss : (expandStep g)^[n] S ⊂ (expandStep g)^[n + 1] S :=
      Finset.ssubset_iff_subset_ne.mpr ⟨iterate_subset_succ g S n, hne⟩
    have hcard := Finset.card_lt_card hss
    omega

theorem reachSet_fixpoint (g : MolGraph) {a : Nat} (ha : a < g.numAtoms) :
    expandStep g (reachSet g a) = reachSet g a := by
  have hsub : ({a} : Finset Nat) ⊆ Finset.range g.numAtoms := by
    intro x hx
    rw [Finset.mem_singleton] at hx
    rw [hx, Finset.mem_range]
    exact ha
  have hex : ∃ k, k < g.numAtoms ∧
      (expandStep g)^[k] {a} = (expandStep g)^[k + 1] {a} := by
    by_contra hne
    push_neg at hne
    have hgrow : ∀ k < g.numAtoms,
        (expandStep g)^[k] ({a} : Finset Nat) ≠ (expandStep g)^[k + 1] {a} :=
      fun k hk h => hne k hk h
    have h1 := card_le_iterate g {a} g.numAtoms hgrow
    have h2 : ((expandStep g)^[g.numAtoms] ({a} : Finset Nat)).card ≤ g.numAtoms := by
      calc ((expandStep g)^[g.numAtoms] ({a} : Finset Nat)).card
          ≤ (Finset.range g.numAtoms).card :=
            Finset.card_le_card (iterate_subset_range g hsub g.numAtoms)
        _ = g.numAtoms := Finset.card_range g.numAtoms
    rw [Finset.card_singleton] at h1
    omega
  obtain ⟨k, hk, heq⟩ := hex
  have hstab := iterate_stabilizes g {a} heq
  have hn := hstab g.numAtoms (le_of_lt hk)
  have hn1 := hstab (g.numAtoms + 1) (by omega)
  show expandStep g ((expandStep g)^[g.numAtoms] {a}) = reachSet g a
  rw [← Function.iterate_succ_apply' (expandStep g) g.numAtoms ({a} : Finset Nat),
    hn1]
  unfold reachSet
  rw [hn]

theorem mem_reachSet_self (g : MolGraph) (a : Nat) : a ∈ reachSet g a := by
  have key : ∀ k, ({a} : Finset Nat) ⊆ (expandStep g)^[k] {a} := by
    intro k
    induction k with
    | zero => exact Finset.Subset.refl _
    | succ n ih => exact ih.trans (iterate_subset_succ g _ n)
  exact key g.numAtoms (Finset.mem_singleton_self a)

theorem reachSet_subset_range (g : MolGraph) {a : Nat} (ha : a < g.numAtoms) :
    reachSet g a ⊆ Finset.range g.numAtoms :=
  iterate_subset_range g
    (by intro x hx; rw [Finset.mem_singleton] at hx; rw [hx, Finset.mem_range]; exact ha)
    g.numAtoms

theorem mem_reachSet_adj (g : MolGraph) {a b c : Nat} (ha : a < g.numAtoms)
    (hb : b ∈ reachSet g a) (hadj : Adj g b c) (hc : c < g.numAtoms) :
    c ∈ reachSet g a := by
  rw [← reachSet_fixpoint g ha]
  unfold expandStep
  apply Finset.mem_union_right
  rw [Finset.mem_filter, Finset.mem_range]
  exact ⟨hc, b, hb, hadj⟩

theorem reachSet_trans (g : MolGraph) {a b : Nat} (ha : a < g.numAtoms)
    (hb : b ∈ reachSet g a) : reachSet g b ⊆ reachSet g a := by
  have key : ∀ k, (expandStep g)^[k] ({b} : Finset Nat) ⊆ reachSet g a := by
    intro k
    induction k with
    | zero =>
      intro x hx
      rw [Function.iterate_zero_apply, Finset.mem_singleton] at hx
      rw [hx]; exact hb
    | succ n ih =>
      rw [Function.iterate_succ_apply']
      calc expandStep g ((expandStep g)^[n] {b})
          ⊆ expandStep g (reachSet g a) := expandStep_mono g ih
        _ = reachSet g a := reachSet_fixpoint g ha
  exact key g.numAtoms

theorem reachSet_symm (g : MolGraph) {a b : Nat} (ha : a < g.numAtoms)
    (hb : b ∈ reachSet g a) : a ∈ reachSet g b := by
  have key : ∀ k, ∀ x ∈ (expandStep g)^[k] ({a} : Finset Nat), a ∈ reachSet g x := by
    intro k
    induction k with
    | zero =>
      intro x hx
      rw [Function.iterate_zero_apply, Finset.mem_singleton] at hx
      rw [hx]
      exact mem_reachSet_self g a
    | succ n ih =>
      intro x hx
      rw [Function.iterate_succ_apply'] at hx
      unfold expandStep at hx
      rw [Finset.mem_union] at hx
      cases hx with
      | inl h1 => exact ih x h1
      | inr h2 =>
        rw [Finset.mem_filter, Finset.mem_range] at h2
        obtain ⟨hxn, y, hy, hadj⟩ := h2
        have hyn : y < g.numAtoms := by
          have := iterate_subset_range g
            (by intro z hz; rw [Finset.mem_singleton] at hz; rw [hz, Finset.mem_range]; exact ha)
            n hy
          rwa [Finset.mem_range] at this
        have hya : a ∈ reachSet g y := ih y hy
        have hyx : y ∈ reachSet g x :=
          mem_reachSet_adj g hxn (mem_reachSet_self g x) hadj.symm' hyn
        exact reachSet_trans g hxn hyx hya
  exact key g.numAtoms b hb

theorem reachSet_eq (g : MolGraph) {a b : Nat} (ha : a < g.numAtoms)
    (hb : b ∈ reachSet g a) : reachSet g a = reachSet g b := by
  have hbn : b < g.numAtoms := by
    have := reachSet_subset_range g ha hb
    rwa [Finset.mem_range] at this
  apply Finset.Subset.antisymm
  · exact reachSet_trans g hbn (reachSet_symm g ha hb)
  · exact reachSet_trans g ha hb

theorem mem_reachSet_iff_reaches (g : MolGraph) (hWF : g.WF) {a b : Nat}
    (ha : a < g.numAtoms) : b ∈ reachSet g a ↔ Reaches g a b := by
  constructor
  · intro hb
    have key : ∀ k, ∀ x ∈ (expandStep g)^[k] ({a} : Finset Nat), Reaches g a x := by
      intro k
      induction k with
      | zero =>
        intro x hx
        rw [Function.iterate_zero_apply, Finset.mem_singleton] at hx
        rw [hx]
        exact Relation.ReflTransGen.refl
      | succ n ih =>
        intro x hx
        rw [Function.iterate_succ_apply'] at hx
        unfold expandStep at hx
        rw [Finset.mem_union] at hx
        cases hx with
        | inl h1 => exact ih x h1
        | inr h2 =>
          rw [Finset.mem_filter] at h2
          obtain ⟨_, y, hy, hadj⟩ := h2
          exact Relation.ReflTransGen.tail (ih y hy) hadj
    exact key g.numAtoms b hb
  · intro h
    induction h with
    | refl => exact mem_reachSet_self g a
    | tail hac hcb ih =>
      exact mem_reachSet_adj g ha ih hcb (adj_lt hWF hcb).2

theorem reaches_symm (g : MolGraph) : Symmetric (Reaches g) :=
  Relation.ReflTransGen.symmetric (fun _ _ h => h.symm')

theorem compRepr_mem (g : MolGraph) (a : Nat) : compRepr g a ∈ reachSet g a :=
  foldMin_mem (mem_reachSet_self g a)

theorem compRepr_le (g : MolGraph) {a b : Nat} (hb : b ∈ reachSet g a) :
    compRepr g a ≤ b :=
  foldMin_le hb

theorem compRepr_congr (g : MolGraph) {a b : Nat} (ha : a < g.numAtoms)
    (hb : b ∈ reachSet g a) : compRepr g a = compRepr g b := by
  unfold compRepr
  rw [reachSet_eq g ha hb]
  exact foldMin_eq (reachSet_symm g ha hb) (mem_reachSet_self g b)

theorem compRepr_lt (g : MolGraph) {a : Nat} (ha : a < g.numAtoms) :
    compRepr g a < g.numAtoms := by
  have := reachSet_subset_range g ha (compRepr_mem g a)
  rwa [Finset.mem_range] at this

theorem compRepr_idem (g : MolGraph) {a : Nat} (ha : a < g.numAtoms) :
    compRepr g (compRepr g a) = compRepr g a :=
  (compRepr_congr g ha (compRepr_mem g a)).symm

theorem compRepr_le_self (g : MolGraph) (a : Nat) : compRepr g a ≤ a :=
  compRepr_le g (mem_reachSet_self g a)

theorem mem_splitter_iff {g : MolGraph} {F : Fragment} :
    F ∈ splitter g ↔ ∃ r, r < g.numAtoms ∧ compRepr g r = r ∧ F = componentOf g r := by
  unfold splitter
  rw [List.mem_map]
  constructor
  · rintro ⟨r, hr, hF⟩
    rw [List.mem_filter, List.mem_range, beq_iff_eq] at hr
    exact ⟨r, hr.1, hr.2, hF.symm⟩
  · rintro ⟨r, h1, h2, h3⟩
    exact ⟨r, List.mem_filter.mpr ⟨List.mem_range.mpr h1, beq_iff_eq.mpr h2⟩, h3.symm⟩

theorem mem_componentOf_atoms {g : MolGraph} {r a : Nat} :
    a ∈ (componentOf g r).atoms ↔ a < g.numAtoms ∧ compRepr g a = r := by
  unfold componentOf
  simp only [List.mem_filter, List.mem_range, beq_iff_eq]

theorem mem_componentOf_bonds {g : MolGraph} {r : Nat} {p : Nat × Nat} :
    p ∈ (componentOf g r).bonds ↔ p ∈ g.bonds ∧ compRepr g p.1 = r := by
  unfold componentOf
  simp only [List.mem_filter, beq_iff_eq]

theorem compRepr_eq_of_reaches {g : MolGraph} (hWF : g.WF) {a b : Nat}
    (ha : a < g.numAtoms) (h : Reaches g a b) : compRepr g a = compRepr g b :=
  compRepr_congr g ha ((mem_reachSet_iff_reaches g hWF ha).mpr h)

theorem reaches_of_compRepr_eq {g : MolGraph} (hWF : g.WF) {a b : Nat}
    (ha : a < g.numAtoms) (hb : b < g.numAtoms)
    (h : compRepr g a = compRepr g b) : Reaches g a b := by
  have h1 : Reaches g a (compRepr g a) :=
    (mem_reachSet_iff_reaches g hWF ha).mp (compRepr_mem g a)
  have h2 : Reaches g b (compRepr g b) :=
    (mem_reachSet_iff_reaches g hWF hb).mp (compRepr_mem g b)
  rw [h] at h1
  exact h1.trans (reaches_symm g h2)

/-- Claim C1: the Molecule Splitter returns one independent output graph per
connected component — two atoms lie in a common output iff they are
connected, every atom lies in exactly one output, every bond lies in
exactly one output (so atoms and bonds of the outputs form an exact
partition of the input), every output's bonds stay among its own atoms,
the outputs are ordered by the lowest original atom index appearing in
each component (each key is the least atom index of its output, and the
keys increase strictly), and a nonempty connected input yields exactly one
output. -/
theorem splitter_partition (g : MolGraph) (hWF : g.WF) :
    (∀ a b : Nat, a < g.numAtoms → b < g.numAtoms →
      ((∃ F ∈ splitter g, a ∈ F.atoms ∧ b ∈ F.atoms) ↔ Reaches g a b)) ∧
    (∀ a : Nat, a < g.numAtoms → ∃! F, F ∈ splitter g ∧ a ∈ F.atoms) ∧
    (∀ p ∈ g.bonds, ∃! F, F ∈ splitter g ∧ p ∈ F.bonds) ∧
    (∀ F ∈ splitter g, ∀ p ∈ F.bonds, p.1 ∈ F.atoms ∧ p.2 ∈ F.atoms) ∧
    (∀ F ∈ splitter g, F.rep ∈ F.atoms ∧ ∀ a ∈ F.atoms, F.rep ≤ a) ∧
    ((splitter g).map Fragment.rep).Sorted (· < ·) ∧
    (0 < g.numAtoms → (∀ a b : Nat, a < g.numAtoms → b < g.numAtoms → Reaches g a b) →
      (splitter g).length = 1) := by
  refine ⟨?_, ?_, ?_, ?_, ?_, ?_, ?_⟩
  · -- same output iff connected
    intro a b ha hb
    constructor
    · rintro ⟨F, hF, haF, hbF⟩
      obtain ⟨r, _, _, hFr⟩ := mem_splitter_iff.mp hF
      rw [hFr] at haF hbF
      have h1 := (mem_componentOf_atoms.mp haF).2
      have h2 := (mem_componentOf_atoms.mp hbF).2
      exact reaches_of_compRepr_eq hWF ha hb (h1.trans h2.symm)
    · intro h
      refine ⟨componentOf g (compRepr g a), ?_, ?_, ?_⟩
      · exact mem_splitter_iff.mpr
          ⟨compRepr g a, compRepr_lt g ha, compRepr_idem g ha, rfl⟩
      · exact mem_componentOf_atoms.mpr ⟨ha, rfl⟩
      · exact mem_componentOf_atoms.mpr ⟨hb, (compRepr_eq_of_reaches hWF ha h).symm⟩
  · -- each atom in exactly one output
    intro a ha
    refine ⟨componentOf g (compRepr g a), ⟨?_, ?_⟩, ?_⟩
    · exact mem_splitter_iff.mpr
        ⟨compRepr g a, compRepr_lt g ha, compRepr_idem g ha, rfl⟩
    · exact mem_componentOf_atoms.mpr ⟨ha, rfl⟩
    · rintro F ⟨hF, haF⟩
      obtain ⟨r, _, _, hFr⟩ := mem_splitter_iff.mp hF
      rw [hFr] at haF ⊢
      rw [(mem_componentOf_atoms.mp haF).2]
  · -- each bond in exactly one output
    intro p hp
    have hp1 : p.1 < g.numAtoms := (hWF p hp).1
    refine ⟨componentOf g (compRepr g p.1), ⟨?_, ?_⟩, ?_⟩
    · exact mem_splitter_iff.mpr
        ⟨compRepr g p.1, compRepr_lt g hp1, compRepr_idem g hp1, rfl⟩
    · exact mem_componentOf_bonds.mpr ⟨hp, rfl⟩
    · rintro F ⟨hF, hpF⟩
      obtain ⟨r, _, _, hFr⟩ := mem_splitter_iff.mp hF
      rw [hFr] at hpF ⊢
      rw [(mem_componentOf_bonds.mp hpF).2]
  · -- independence: bonds stay among the output's atoms
    intro F hF p hpF
    obtain ⟨r, _, _, hFr⟩ := mem_splitter_iff.mp hF
    rw [hFr] at hpF ⊢
    obtain ⟨hp, hrep⟩ := mem_componentOf_bonds.mp hpF
    have hp1 : p.1 < g.numAtoms := (hWF p hp).1
    have hp2 : p.2 < g.numAtoms := (hWF p hp).2.1
    have hadj : Adj g p.1 p.2 := Or.inl (by
      have : (p.1, p.2) = p := rfl
      rw [this]
      exact hp)
    have h21 : compRepr g p.1 = compRepr g p.2 :=
      compRepr_congr g hp1
        (mem_reachSet_adj g hp1 (mem_reachSet_self g p.1) hadj hp2)
    exact ⟨mem_componentOf_atoms.mpr ⟨hp1, hrep⟩,
      mem_componentOf_atoms.mpr ⟨hp2, h21 ▸ hrep⟩⟩
  · -- each output's key is its least atom index
    intro F hF
    obtain ⟨r, hr, hrfix, hFr⟩ := mem_splitter_iff.mp hF
    rw [hFr]
    constructor
    · exact mem_componentOf_atoms.mpr ⟨hr, hrfix⟩
    · intro a haF
      obtain ⟨han, harep⟩ := mem_componentOf_atoms.mp haF
      show r ≤ a
      calc r = compRepr g a := harep.symm
        _ ≤ a := compRepr_le_self g a
  · -- keys increase strictly
    have hmap : (splitter g).map Fragment.rep =
        (List.range g.numAtoms).filter (fun a => compRepr g a == a) := by
      unfold splitter
      rw [List.map_map]
      exact List.map_id'' (fun _ => rfl) _
    rw [hmap]
    exact List.Pairwise.sublist (List.filter_sublist _) (List.pairwise_lt_range _)
  · -- connected nonempty input: exactly one output
    intro hn hconn
    unfold splitter
    rw [List.length_map]
    have h0 : compRepr g 0 < g.numAtoms := compRepr_lt g hn
    have hmem : ∀ a : Nat,
        a ∈ (List.range g.numAtoms).filter (fun a => compRepr g a == a) ↔
          a ∈ [compRepr g 0] := by
      intro a
      rw [List.mem_filter, List.mem_range, beq_iff_eq, List.mem_singleton]
      constructor
      · rintro ⟨han, hfix⟩
        have : compRepr g 0 = compRepr g a :=
          compRepr_eq_of_reaches hWF hn (hconn 0 a hn han)
        rw [this, hfix]
      · intro h
        subst h
        exact ⟨h0, compRepr_idem g hn⟩
    have hperm : ((List.range g.numAtoms).filter (fun a => compRepr g a == a)).Perm
        [compRepr g 0] :=
      (List.perm_ext_iff_of_nodup
        (List.Nodup.filter _ (List.nodup_range _))
        (List.nodup_singleton _)).mpr hmem
    rw [hperm.length_eq]
    rfl

/-- Witness for C1, at the spec's component-size example: the 9-atom graph
with components of sizes 5, 3 and 1 yields 3 outputs with exactly those
atom counts, and the full partition property holds for it. -/
theorem splitter_partition_witness :
    (splitter mol9).map (fun F => F.atoms.length) = [5, 3, 1] ∧
    ((∀ a b : Nat, a < mol9.numAtoms → b < mol9.numAtoms →
      ((∃ F ∈ splitter mol9, a ∈ F.atoms ∧ b ∈ F.atoms) ↔ Reaches mol9 a b)) ∧
    (∀ a : Nat, a < mol9.numAtoms → ∃! F, F ∈ splitter mol9 ∧ a ∈ F.atoms) ∧
    (∀ p ∈ mol9.bonds, ∃! F, F ∈ splitter mol9 ∧ p ∈ F.bonds) ∧
    (∀ F ∈ splitter mol9, ∀ p ∈ F.bonds, p.1 ∈ F.atoms ∧ p.2 ∈ F.atoms) ∧
    (∀ F ∈ splitter mol9, F.rep ∈ F.atoms ∧ ∀ a ∈ F.atoms, F.rep ≤ a) ∧
    ((splitter mol9).map Fragment.rep).Sorted (· < ·) ∧
    (0 < mol9.numAtoms →
      (∀ a b : Nat, a < mol9.numAtoms → b < mol9.numAtoms → Reaches mol9 a b) →
      (splitter mol9).length = 1)) :=
  ⟨by decide, splitter_partition mol9 (by decide)⟩

theorem bestShape_eq_none {residual : Shape → ℚ} :
    ∀ {l : List Shape}, bestShape residual l = none ↔ l = [] := by
  intro l
  cases l with
  | nil => simp [bestShape]
  | cons s rest =>
    simp only [bestShape]
    cases bestShape residual rest <;> simp

theorem bestShape_mem {residual : Shape → ℚ} :
    ∀ {l : List Shape} {b : Shape}, bestShape residual l = some b → b ∈ l := by
  intro l
  induction l with
  | nil => intro b h; simp [bestShape] at h
  | cons s rest ih =>
    intro b h
    simp only [bestShape] at h
    cases hrest : bestShape residual rest with
    | none =>
      rw [hrest] at h
      simp at h
      simp [h]
    | some m =>
      rw [hrest] at h
      simp at h
      by_cases hle : residual s ≤ residual m
      · rw [if_pos hle] at h
        simp [h]
      · rw [if_neg hle] at h
        exact List.mem_cons_of_mem s (h ▸ ih hrest)

theorem bestShape_le {residual : Shape → ℚ} :
    ∀ {l : List Shape} {b : Shape}, bestShape residual l = some b →
      ∀ t ∈ l, residual b ≤ residual t := by
  intro l
  induction l with
  | nil => intro b h; simp [bestShape] at h
  | cons s rest ih =>
    intro b h t ht
    simp only [bestShape] at h
    cases hrest : bestShape residual rest with
    | none =>
      rw [hrest] at h
      simp at h
      have hrest' : rest = [] := bestShape_eq_none.mp hrest
      subst hrest'
      rw [List.mem_singleton] at ht
      subst ht
      rw [← h]
    | some m =>
      rw [hrest] at h
      simp at h
      rcases List.mem_cons.mp ht with he | hm
      · subst he
        by_cases hle : residual t ≤ residual m
        · rw [if_pos hle] at h
          rw [← h]
        · rw [if_neg hle] at h
          rw [← h]
          exact le_of_not_le hle
      · by_cases hle : residual s ≤ residual m
        · rw [if_pos hle] at h
          rw [← h]
          exact le_trans hle (ih hrest t hm)
        · rw [if_neg hle] at h
          rw [← h]
          exact ih hrest t hm

/-- Claim C7: the Geometry Resolver never commits to a stereopermutation
on inadmissible geometry.  Fewer observed positions than the shape
requires, or near-degenerate/collinear positions, fail with
`IndeterminateGeometry`; on admissible geometry, residuals all above the
configured threshold fail with `NoMatchingShape`, and a tie of two
candidate shapes within the configured tolerance fails with
`AmbiguousShape`; and whenever a shape is committed, the geometry was
admissible, the winner matches the site count, its residual is within the
threshold, it is residual-minimal, and no other matching candidate ties
with it within the tolerance. -/
theorem resolve_never_commits (catalog : List Shape) (residual : Shape → ℚ)
    (inp : ResolverInput) (cfg : ResolverConfig) :
    ((inp.positionCount < inp.siteCount ∨ inp.degenerate = true) →
      resolve catalog residual inp cfg =
        Except.error ResolveError.IndeterminateGeometry) ∧
    ((inp.siteCount ≤ inp.positionCount ∧ inp.degenerate = false) →
      (∀ t ∈ catalog, t.vertexCount = inp.siteCount → cfg.threshold < residual t) →
      resolve catalog residual inp cfg =
        Except.error ResolveError.NoMatchingShape) ∧
    ((inp.siteCount ≤ inp.positionCount ∧ inp.degenerate = false) →
      ∀ b, bestShape residual
          (catalog.filter (fun s => s.vertexCount == inp.siteCount)) = some b →
        residual b ≤ cfg.threshold →
        (∃ t ∈ catalog, t.vertexCount = inp.siteCount ∧ t ≠ b ∧
          |residual t - residual b| ≤ cfg.tolerance) →
        resolve catalog residual inp cfg =
          Except.error ResolveError.AmbiguousShape) ∧
    (∀ s, resolve catalog residual inp cfg = Except.ok s →
      inp.siteCount ≤ inp.positionCount ∧ inp.degenerate = false ∧
      s ∈ catalog ∧ s.vertexCount = inp.siteCount ∧
      residual s ≤ cfg.threshold ∧
      (∀ t ∈ catalog, t.vertexCount = inp.siteCount →
        residual s ≤ residual t ∧
          (t ≠ s → cfg.tolerance < |residual t - residual s|))) := by
  have hgeom : (inp.positionCount < inp.siteCount ∨ inp.degenerate = true) ∨
      (inp.siteCount ≤ inp.positionCount ∧ inp.degenerate = false) := by
    rcases Nat.lt_or_ge inp.positionCount inp.siteCount with h | h
    · exact Or.inl (Or.inl h)
    · cases hd : inp.degenerate
      · exact Or.inr ⟨h, rfl⟩
      · exact Or.inl (Or.inr rfl)
  refine ⟨?_, ?_, ?_, ?_⟩
  · intro h
    unfold resolve
    rw [if_pos h]
  · rintro ⟨h1, h2⟩ hthr
    have hneg : ¬ (inp.positionCount < inp.siteCount ∨ inp.degenerate = true) := by
      rintro (h | h)
      · omega
      · rw [h2] at h; exact Bool.false_ne_true h
    unfold resolve
    rw [if_neg hneg]
    cases hbs : bestShape residual
        (catalog.filter (fun s => s.vertexCount == inp.siteCount)) with
    | none => rfl
    | some b =>
      have hbmem := bestShape_mem hbs
      rw [List.mem_filter, beq_iff_eq] at hbmem
      have := hthr b hbmem.1 hbmem.2
      rw [Option.elim_some, if_pos this]
  · rintro ⟨h1, h2⟩ b hbs hble ⟨t, ht, htv, htne, htol⟩
    have hneg : ¬ (inp.positionCount < inp.siteCount ∨ inp.degenerate = true) := by
      rintro (h | h)
      · omega
      · rw [h2] at h; exact Bool.false_ne_true h
    unfold resolve
    rw [if_neg hneg, hbs, Option.elim_some]
    rw [if_neg (not_lt.mpr hble)]
    have hany : (catalog.filter (fun s => s.vertexCount == inp.siteCount)).any
        (fun s => decide (s ≠ b) && decide (|residual s - residual b| ≤ cfg.tolerance)) = true := by
      rw [List.any_eq_true]
      refine ⟨t, List.mem_filter.mpr ⟨ht, beq_iff_eq.mpr htv⟩, ?_⟩
      rw [Bool.and_eq_true, decide_eq_true_iff, decide_eq_true_iff]
      exact ⟨htne, htol⟩
    rw [if_pos hany]
  · intro s hok
    unfold resolve at hok
    by_cases hbad : inp.positionCount < inp.siteCount ∨ inp.degenerate = true
    · rw [if_pos hbad] at hok
      exact absurd hok (by simp)
    · rw [if_neg hbad] at hok
      have hgood : inp.siteCount ≤ inp.positionCount ∧ inp.degenerate = false := by
        rcases hgeom with h | h
        · exact absurd h hbad
        · exact h
      cases hbs : bestShape residual
          (catalog.filter (fun s => s.vertexCount == inp.siteCount)) with
      | none =>
        rw [hbs, Option.elim_none] at hok
        exact absurd hok (by simp)
      | some b =>
        rw [hbs, Option.elim_some] at hok
        by_cases hthr : cfg.threshold < residual b
        · rw [if_pos hthr] at hok
          exact absurd hok (by simp)
        · rw [if_neg hthr] at hok
          by_cases hany : (catalog.filter (fun s => s.vertexCount == inp.siteCount)).any
              (fun s => decide (s ≠ b) && decide (|residual s - residual b| ≤ cfg.tolerance)) = true
          · rw [if_pos hany] at hok
            exact absurd hok (by simp)
          · rw [if_neg hany] at hok
            have hsb : s = b := Except.ok.inj hok.symm
            subst hsb
            have hbmem := bestShape_mem hbs
            rw [List.mem_filter, beq_iff_eq] at hbmem
            refine ⟨hgood.1, hgood.2, hbmem.1, hbmem.2, not_lt.mp hthr, ?_⟩
            intro t ht htv
            constructor
            · exact bestShape_le hbs t (List.mem_filter.mpr ⟨ht, beq_iff_eq.mpr htv⟩)
            · intro htne
              by_contra hcon
              apply hany
              rw [List.any_eq_true]
              refine ⟨t, List.mem_filter.mpr ⟨ht, beq_iff_eq.mpr htv⟩, ?_⟩
              rw [Bool.and_eq_true, decide_eq_true_iff, decide_eq_true_iff]
              exact ⟨htne, not_lt.mp hcon⟩

/-- Witness for C7: concrete resolver runs — too few positions and
degenerate positions are rejected as `IndeterminateGeometry`, a residual
above the threshold as `NoMatchingShape`, and two equal-residual 4-vertex
candidates as `AmbiguousShape`. -/
theorem resolve_never_commits_witness :
    resolve [tetrahedron, seesaw] (fun _ => 1) ⟨4, 3, false⟩ ⟨1, 2⟩ =
      Except.error ResolveError.IndeterminateGeometry ∧
    resolve [tetrahedron, seesaw] (fun _ => 1) ⟨4, 4, true⟩ ⟨1, 2⟩ =
      Except.error ResolveError.IndeterminateGeometry ∧
    resolve [tetrahedron, seesaw] (fun _ => 3) ⟨4, 4, false⟩ ⟨1, 2⟩ =
      Except.error ResolveError.NoMatchingShape ∧
    resolve [tetrahedron, seesaw] (fun _ => 1) ⟨4, 4, false⟩ ⟨1, 2⟩ =
      Except.error ResolveError.AmbiguousShape :=
  ⟨(resolve_never_commits [tetrahedron, seesaw] (fun _ => 1) ⟨4, 3, false⟩ ⟨1, 2⟩).1
      (Or.inl (by decide)),
   (resolve_never_commits [tetrahedron, seesaw] (fun _ => 1) ⟨4, 4, true⟩ ⟨1, 2⟩).1
      (Or.inr rfl),
   (resolve_never_commits [tetrahedron, seesaw] (fun _ => 3) ⟨4, 4, false⟩ ⟨1, 2⟩).2.1
      ⟨by decide, rfl⟩ (fun t _ _ => by norm_num),
   (resolve_never_commits [tetrahedron, seesaw] (fun _ => 1) ⟨4, 4, false⟩ ⟨1, 2⟩).2.2.1
      ⟨by decide, rfl⟩ tetrahedron (by decide) (by norm_num)
      ⟨seesaw, by decide, rfl, by decide, by norm_num⟩⟩

theorem flatten_chunkCons (key : Nat → List Nat) (a : Nat) :
    ∀ gs : List (List Nat), (chunkCons key a gs).flatten = a :: gs.flatten := by
  intro gs
  match gs with
  | [] => rfl
  | [] :: gs => simp [chunkCons]
  | (b :: grp) :: gs =>
    by_cases h : key a = key b
    · simp [chunkCons, h]
    · simp [chunkCons, h]

theorem flatten_chunkByKey (key : Nat → List Nat) :
    ∀ l : List Nat, (chunkByKey key l).flatten = l := by
  intro l
  induction l with
  | nil => rfl
  | cons a rest ih =>
    show (chunkCons key a (chunkByKey key rest)).flatten = a :: rest
    rw [flatten_chunkCons, ih]

theorem chunkCons_keys_eq (key : Nat → List Nat) (a : Nat)
    (gs : List (List Nat))
    (hgs : ∀ grp ∈ gs, ∀ s ∈ grp, ∀ t ∈ grp, key s = key t) :
    ∀ grp ∈ chunkCons key a gs, ∀ s ∈ grp, ∀ t ∈ grp, key s = key t := by
  match gs with
  | [] =>
    intro grp hgrp s hs t ht
    rw [chunkCons] at hgrp
    rw [List.mem_singleton] at hgrp
    subst hgrp
    rw [List.mem_singleton] at hs ht
    rw [hs, ht]
  | [] :: gs =>
    intro grp hgrp s hs t ht
    rw [chunkCons] at hgrp
    rcases List.mem_cons.mp hgrp with he | hm
    · subst he
      rw [List.mem_singleton] at hs ht
      rw [hs, ht]
    · exact hgs grp (List.mem_cons_of_mem _ hm) s hs t ht
  | (b :: grp') :: gs =>
    intro grp hgrp s hs t ht
    rw [chunkCons] at hgrp
    by_cases h : key a = key b
    · rw [if_pos h] at hgrp
      rcases List.mem_cons.mp hgrp with he | hm
      · subst he
        have hkey : ∀ x ∈ a :: b :: grp', key x = key b := by
          intro x hx
          rcases List.mem_cons.mp hx with hxa | hxm
          · rw [hxa, h]
          · exact hgs (b :: grp') (List.mem_cons_self _ _) x hxm b
              (List.mem_cons_self _ _)
        rw [hkey s hs, hkey t ht]
      · exact hgs grp (List.mem_cons_of_mem _ hm) s hs t ht
    · rw [if_neg h] at hgrp
      rcases List.mem_cons.mp hgrp with he | hm
      · subst he
        rw [List.mem_singleton] at hs ht
        rw [hs, ht]
      · exact hgs grp hm s hs t ht

theorem chunkByKey_keys_eq (key : Nat → List Nat) :
    ∀ l : List Nat, ∀ grp ∈ chunkByKey key l, ∀ s ∈ grp, ∀ t ∈ grp,
      key s = key t := by
  intro l
  induction l with
  | nil => intro grp hgrp; exact absurd hgrp (List.not_mem_nil grp)
  | cons a rest ih =>
    show ∀ grp ∈ chunkCons key a (chunkByKey key rest), _
    exact chunkCons_keys_eq key a (chunkByKey key rest) ih

/-- Claim C3: the Substituent Ranker's output partition is invariant
under any permutation of the order in which the neighbor sites are
presented, every returned Ranking Class holds only sites with identical
rooted-substituent-subgraph descriptors — so two substituents whose
rooted subgraphs are provably different (distinguished by the layered
descriptor comparison) are never placed in the same class — and the
classes form a partition of the presented sites. -/
theorem ranker_invariant (g : RankGraph) (center : Nat)
    (sites sites' : List Nat) (h : sites.Perm sites') :
    rankSites g center sites = rankSites g center sites' ∧
    (∀ grp ∈ rankSites g center sites, ∀ s ∈ grp, ∀ t ∈ grp,
      siteKey g center s = siteKey g center t) ∧
    (rankSites g center sites).flatten.Perm sites := by
  refine ⟨?_, ?_, ?_⟩
  · unfold rankSites
    congr 1
    exact List.eq_of_perm_of_sorted
      ((List.perm_insertionSort _ _).trans (h.trans (List.perm_insertionSort _ _).symm))
      (List.sorted_insertionSort _ _) (List.sorted_insertionSort _ _)
  · exact chunkByKey_keys_eq (siteKey g center) _
  · unfold rankSites
    rw [flatten_chunkByKey]
    exact List.perm_insertionSort _ _

/-- Witness for C3: a concrete Fe center with O, CH and CF substituents,
ranked from two presentation orders. -/
theorem ranker_invariant_witness :
    rankSites rankG 0 [1, 2, 3] = rankSites rankG 0 [3, 1, 2] ∧
    (∀ grp ∈ rankSites rankG 0 [1, 2, 3], ∀ s ∈ grp, ∀ t ∈ grp,
      siteKey rankG 0 s = siteKey rankG 0 t) ∧
    (rankSites rankG 0 [1, 2, 3]).flatten.Perm [1, 2, 3] :=
  ranker_invariant rankG 0 [1, 2, 3] [3, 1, 2] (by decide)

end Molassembler
